import Mathlib

set_option maxRecDepth 100000

/-!
Shallow embedding of the cryptomite core: cryptomite/utils.py and
cryptomite/trevisan.py.  Loops are embedded either as structural
recursion or with an explicit fuel argument; where the Python loop
provably terminates, the wrapper supplies a fuel that is proved
sufficient, so the wrapper computes exactly what the Python function
returns.  Python exceptions are modelled with Option (none = raise).
-/

/-- Integer square root: the largest r with r * r ≤ n. -/
def isqrt : Nat → Nat
  | 0 => 0
  | n + 1 =>
    let r := isqrt n
    if (r + 1) * (r + 1) ≤ n + 1 then r + 1 else r

/-- Models the Python expression round(sqrt(n)): the nearest integer to
the real square root of n.  A tie at one half is impossible, because the
square root of an integer is never exactly a half-integer; and
sqrt n > r + 1/2 iff n > r * r + r for r = isqrt n. -/
def roundSqrt (n : Nat) : Nat :=
  let r := isqrt n
  if r * r + r < n then r + 1 else r

/-- The list of trial divisors probed by is_prime:
Python range(2, round(sqrt(n)) + 1). -/
def trialRange (n : Nat) : List Nat :=
  List.range' 2 (roundSqrt n + 1 - 2)

/-- utils.is_prime: trial division by every i in
range(2, round(sqrt(n)) + 1); true when no divisor is found. -/
def is_prime (n : Nat) : Bool :=
  (trialRange n).all (fun i => n % i != 0)

/-- The adjustment at the top of previous_prime and previous_na_set:
k -= 1, then one more -1 when odd: the largest even number ≤ k - 1
(for k ≥ 1; the claims only concern k ≥ 2). -/
def evenizeDown (k : Nat) : Nat :=
  let k1 := k - 1
  if k1 % 2 != 0 then k1 - 1 else k1

/-- The adjustment at the top of next_prime and next_na_set:
k -= 1, then +1 when odd: the smallest even number ≥ k - 1. -/
def evenizeUp (k : Nat) : Nat :=
  let k1 := k - 1
  if k1 % 2 != 0 then k1 + 1 else k1

/-- The descending probe loop of previous_prime:
while not is_prime(k + 1): k -= 2, then return k + 1.  The fuel bounds
the number of probes; previous_prime supplies a fuel that is provably
never exhausted, since the candidate 1 satisfies is_prime. -/
def downF : Nat → Nat → Nat
  | 0, k => k + 1
  | fuel + 1, k => if is_prime (k + 1) then k + 1 else downF fuel (k - 2)

/-- utils.previous_prime. -/
def previous_prime (k : Nat) : Nat :=
  downF (evenizeDown k / 2 + 2) (evenizeDown k)

/-- The ascending probe loop of next_prime:
while not is_prime(k + 1): k += 2, then return k + 1. -/
def upF : Nat → Nat → Nat
  | 0, k => k + 1
  | fuel + 1, k => if is_prime (k + 1) then k + 1 else upF fuel (k + 2)

/-- utils.next_prime.  The fuel evenizeUp k + 2 is proved sufficient via
the Bertrand postulate, so the wrapper equals the Python loop. -/
def next_prime (k : Nat) : Nat :=
  upF (evenizeUp k + 2) (evenizeUp k)

/-- utils.closest_prime.  For k ≥ 2 both subtractions are nonnegative in
Python as well, so truncated subtraction is faithful there. -/
def closest_prime (k : Nat) : Nat :=
  let next_p := next_prime k
  let previous_p := previous_prime k
  if next_p - k ≥ k - previous_p then previous_p else next_p

/-- The trial-division loop of prime_facto: starting from divisor i,
while i <= round(sqrt(n)) + 1: divide out i when it divides n, else
advance i.  Returns the factors found together with the residual n.
The fuel n + roundSqrt n + 2 always suffices (proved below). -/
def trialLoopF : Nat → Nat → Nat → List Nat × Nat
  | 0, n, _ => ([], n)
  | fuel + 1, n, i =>
    if i ≤ roundSqrt n + 1 then
      if n % i == 0 then
        let r := trialLoopF fuel (n / i) i
        (i :: r.1, r.2)
      else trialLoopF fuel n (i + 1)
    else ([], n)

/-- The grouping loop of prime_facto: collapse each run of equal
consecutive factors, returning the run heads (factors2) and the run
lengths (powers). -/
def groupFactors : List Nat → List Nat × List Nat
  | [] => ([], [])
  | [x] => ([x], [1])
  | x :: y :: rest =>
    let r := groupFactors (y :: rest)
    if x == y then
      (r.1, match r.2 with
        | [] => []
        | p :: ps => (p + 1) :: ps)
    else (x :: r.1, 1 :: r.2)

/-- utils.prime_facto.  none models the Python IndexError raised on
factors[0] when the factor list is empty (input n = 1). -/
def prime_facto (n : Nat) : Option (List Nat × List Nat) :=
  let t := trialLoopF (n + roundSqrt n + 2) n 2
  let factors := if t.2 != 1 then t.1 ++ [t.2] else t.1
  match factors with
  | [] => none
  | _ :: _ => some (groupFactors factors)

/-- The primitive-root test loop shared by next_na_set and
previous_na_set, for the candidate c = k + 1 where k = c - 1: for each q
in the factor list, Python evaluates pow(2, (c - 1) // q, c) and rejects
the candidate when it equals 1.  A factor q = 0 (which prime_facto
produces exactly for the input 0) makes Python raise ZeroDivisionError
on (c - 1) // q: modelled as none. -/
def checkFactors (c k : Nat) : List Nat → Option Bool
  | [] => some true
  | q :: qs =>
    if q == 0 then none
    else if 2 ^ (k / q) % c == 1 then some false
    else checkFactors c k qs

/-- The whole acceptance test applied to a candidate c in the na_set
searches: factor c - 1, then run the primitive-root checks. -/
def na_check (c : Nat) : Option Bool :=
  match prime_facto (c - 1) with
  | none => none
  | some fp => checkFactors c (c - 1) fp.1

/-- The ascending scan of next_na_set: candidates k + 1, k + 3, ...;
a candidate is skipped while not is_prime, rejected (continue) when some
prime factor q of candidate - 1 has pow(2, (candidate-1) // q, candidate)
equal to 1, and returned otherwise.  none models both fuel exhaustion
(the unbounded Python loop not having returned yet) and a Python
exception inside the check. -/
def upNA : Nat → Nat → Option Nat
  | 0, _ => none
  | fuel + 1, k =>
    if is_prime (k + 1) then
      match na_check (k + 1) with
      | some true => some (k + 1)
      | some false => upNA fuel (k + 2)
      | none => none
    else upNA fuel (k + 2)

/-- utils.next_na_set.  The Python loop has no bound and its termination
for every k is not known, so the fuel is exposed: the Python call
returns p exactly when some fuel yields some p. -/
def next_na_set (fuel k : Nat) : Option Nat := upNA fuel (evenizeUp k)

/-- The descending scan of previous_na_set (candidates k + 1, k - 1, ...). -/
def downNA : Nat → Nat → Option Nat
  | 0, _ => none
  | fuel + 1, k =>
    if is_prime (k + 1) then
      match na_check (k + 1) with
      | some true => some (k + 1)
      | some false => downNA fuel (k - 2)
      | none => none
    else downNA fuel (k - 2)

/-- utils.previous_na_set.  The downward scan provably needs at most
evenizeDown k / 2 + 2 probes: it accepts the candidate 3, and at the
candidate 1 the check raises (none). -/
def previous_na_set (k : Nat) : Option Nat :=
  downNA (evenizeDown k / 2 + 2) (evenizeDown k)

/-- utils.closest_na_set: next_na_set is evaluated first, then
previous_na_set; an exception in either propagates (none). -/
def closest_na_set (fuel k : Nat) : Option Nat :=
  match next_na_set fuel k with
  | none => none
  | some np =>
    match previous_na_set k with
    | none => none
    | some pp => some (if np - k ≥ k - pp then pp else np)

/-- utils.von_neumann: zip(bits[0::2], bits[1::2]) pairs consecutive
disjoint bits (a trailing unpaired bit is dropped by zip); the
comprehension keeps x for each pair (x, y) with x != y. -/
def von_neumann : List Nat → List Nat
  | x :: y :: rest => if x != y then x :: von_neumann rest else von_neumann rest
  | _ => []

/-- utils.CompactBoolList: data models the bytearray _data, length the
logical bit count _length, and index the iteration cursor _index that
the class stores on itself (returned by both iter and next). -/
structure CompactBoolList where
  data : List Nat
  length : Nat
  index : Nat
deriving DecidableEq

namespace CompactBoolList

/-- CompactBoolList(): the empty buffer. -/
def empty : CompactBoolList := ⟨[], 0, 0⟩

/-- One byte update: Python data[byte] |= (1 << bit) or
data[byte] &= ~(1 << bit).  On byte values v < 256 the Python mask
~(1 << bit) acts exactly like 255 ^^^ (1 <<< bit); on arbitrary v the
two agree on every bit position below 8, which is all the reads ever
look at (bit = j % 8 < 8). -/
def setBitRaw (v bit : Nat) (value : Bool) : Nat :=
  if value then v ||| (1 <<< bit)
  else v &&& (255 ^^^ (1 <<< bit))

/-- _set_byte_and_bit_index for an already resolved nonnegative index j:
byte j / 8, bit j % 8. -/
def setAt (s : CompactBoolList) (j : Nat) (value : Bool) : CompactBoolList :=
  { s with data := s.data.set (j / 8) (setBitRaw (s.data.getD (j / 8) 0) (j % 8) value) }

/-- The read (self.data[byte] & (1 << bit)) != 0 of an already resolved
nonnegative index j. -/
def bitAt (s : CompactBoolList) (j : Nat) : Bool :=
  s.data.getD (j / 8) 0 &&& (1 <<< (j % 8)) != 0

/-- The getter of CompactBoolList with an integer index: the bounds
check -length <= i < length comes first (IndexError = none), then the
negative index is resolved by adding length, then the byte/bit read. -/
def getItem (s : CompactBoolList) (i : Int) : Option Bool :=
  if -(s.length : Int) ≤ i ∧ i < (s.length : Int) then
    some (s.bitAt (if i < 0 then i + (s.length : Int) else i).toNat)
  else none

/-- The setter of CompactBoolList: same bounds check and resolution,
then the byte update. -/
def setItem (s : CompactBoolList) (i : Int) (value : Bool) : Option CompactBoolList :=
  if -(s.length : Int) ≤ i ∧ i < (s.length : Int) then
    some (s.setAt (if i < 0 then i + (s.length : Int) else i).toNat value)
  else none

/-- append: grow the bytearray by one zero byte when length % 8 == 0,
set the bit at position length, then increment length. -/
def append (s : CompactBoolList) (value : Bool) : CompactBoolList :=
  let s1 := if s.length % 8 == 0 then { s with data := s.data ++ [0] } else s
  let s2 := s1.setAt s.length value
  { s2 with length := s.length + 1 }

/-- CompactBoolList(iterable): start empty and append per element. -/
def ofList (l : List Bool) : CompactBoolList :=
  l.foldl (fun s b => s.append b) empty

/-- One step of the iteration protocol: iter returns the buffer itself,
and next yields the element at the shared cursor (none = StopIteration);
the cursor is reset to 0 only on exhaustion. -/
def nextStep (s : CompactBoolList) : Option Bool × CompactBoolList :=
  if s.index < s.length then
    (s.getItem (s.index : Int), { s with index := s.index + 1 })
  else (none, { s with index := 0 })

/-- Repeated nextStep, collecting yielded elements until StopIteration;
fuel length + 1 - index always suffices. -/
def toListAux : Nat → CompactBoolList → List Bool × CompactBoolList
  | 0, s => ([], s)
  | fuel + 1, s =>
    match s.nextStep with
    | (some b, s1) =>
      let r := toListAux fuel s1
      (b :: r.1, r.2)
    | (none, s1) => ([], s1)

/-- to_list, that is list(self): drain the iterator starting from the
current shared cursor, returning the collected bits and the final state. -/
def to_list (s : CompactBoolList) : List Bool × CompactBoolList :=
  toListAux (s.length + 1 - s.index) s

end CompactBoolList

/-- trevisan.Trevisan.extract with the external engine abstracted as a
stateful single-bit oracle: step e i models self.ext.extract_bit(i) in
engine state e, and m models self.config.m.  The loop
for i in range(m): bits.append(self.ext.extract_bit(i)) starts from the
fresh buffer CompactBoolList().  Besides the output buffer, the
embedding returns the final engine state and the trace of the indices
passed to extract_bit, in call order. -/
def trevisanExtract {σ : Type} (step : σ → Nat → Bool × σ) (m : Nat) (e0 : σ) :
    CompactBoolList × σ × List Nat :=
  (List.range m).foldl
    (fun acc i =>
      let b := step acc.2.1 i
      (acc.1.append b.1, b.2, acc.2.2 ++ [i]))
    (CompactBoolList.empty, e0, [])

/-- The successive answers of a stateful engine along a list of queried
indices. -/
def engineAnswers {σ : Type} (step : σ → Nat → Bool × σ) : σ → List Nat → List Bool
  | _, [] => []
  | e, i :: rest =>
    let b := step e i
    b.1 :: engineAnswers step b.2 rest

example : is_prime 1 = true := by decide
example : is_prime 2 = true := by decide
example : is_prime 3 = true := by decide
example : is_prime 4 = false := by decide
example : is_prime 25 = false := by decide
example : is_prime 97 = true := by decide
example : previous_prime 2 = 1 := by decide
example : next_prime 2 = 3 := by decide
example : previous_prime 10 = 7 := by decide
example : next_prime 10 = 11 := by decide
example : previous_prime 3 = 3 := by decide
example : next_prime 3 = 3 := by decide
example : closest_prime 10 = 11 := by decide
example : prime_facto 24 = some ([2, 3], [3, 1]) := by decide
example : prime_facto 0 = some ([0], [1]) := by decide
example : prime_facto 1 = none := by decide
example : na_check 3 = some true := by decide
example : na_check 1 = none := by decide
example : next_na_set 5 3 = some 3 := by decide
example : next_na_set 10 4 = some 5 := by decide
example : previous_na_set 2 = none := by decide
example : previous_na_set 14 = some 13 := by decide
example : closest_na_set 5 2 = none := by decide
example : von_neumann [0, 1, 1, 0, 1, 1, 0, 0] = [0, 1] := by decide
example : von_neumann [] = [] := by decide
example : von_neumann [1] = [] := by decide
example : (CompactBoolList.ofList [true, false, true]).length = 3 := by decide
example : (CompactBoolList.ofList [true, false, true]).data = [5] := by decide
example : (CompactBoolList.ofList [true, false, true]).getItem 0 = some true := by decide
example : (CompactBoolList.ofList [true, false, true]).getItem 1 = some false := by decide
example : (CompactBoolList.ofList [true, false, true]).getItem (-1) = some true := by decide
example : (CompactBoolList.ofList [true, false, true]).getItem 3 = none := by decide
example : (CompactBoolList.ofList [true, false, true]).getItem (-4) = none := by decide
example : (CompactBoolList.ofList [true, false, true]).to_list.1 = [true, false, true] := by decide
example : ((CompactBoolList.ofList [true, false]).nextStep.2.to_list).1 = [false] := by decide
example :
    (trevisanExtract (fun (e : Nat) i => (decide (e % 2 = 0), e + i)) 4 0).2.2 = [0, 1, 2, 3] := by
  decide
example : (CompactBoolList.ofList (List.replicate 9 true)).data = [255, 1] := by decide

theorem isqrt_le (n : Nat) : isqrt n * isqrt n ≤ n := by
  induction n with
  | zero => simp [isqrt]
  | succ m ih =>
    simp only [isqrt]
    split
    · assumption
    · exact Nat.le_succ_of_le ih

theorem lt_isqrt_succ (n : Nat) : n < (isqrt n + 1) * (isqrt n + 1) := by
  induction n with
  | zero => simp [isqrt]
  | succ m ih =>
    simp only [isqrt]
    split
    · nlinarith [ih]
    · exact Nat.lt_of_not_le (by assumption)

theorem isqrt_eq_sqrt (n : Nat) : isqrt n = Nat.sqrt n :=
  Nat.eq_sqrt.mpr ⟨isqrt_le n, lt_isqrt_succ n⟩

theorem sqrt_le_roundSqrt (n : Nat) : Nat.sqrt n ≤ roundSqrt n := by
  simp only [roundSqrt, isqrt_eq_sqrt]
  split <;> omega

theorem roundSqrt_le_sqrt_succ (n : Nat) : roundSqrt n ≤ Nat.sqrt n + 1 := by
  simp only [roundSqrt, isqrt_eq_sqrt]
  split <;> omega

theorem roundSqrt_lt_self {n : Nat} (hn : 2 ≤ n) : roundSqrt n < n := by
  rcases Nat.lt_or_ge n 5 with h5 | h5
  · interval_cases n <;> decide
  · have h4 : 2 ≤ Nat.sqrt n := Nat.le_sqrt.mpr (by omega)
    have h1 := Nat.sqrt_le n
    have h2 := roundSqrt_le_sqrt_succ n
    nlinarith

theorem mem_trialRange {n i : Nat} : i ∈ trialRange n ↔ 2 ≤ i ∧ i ≤ roundSqrt n := by
  constructor
  · intro hm
    rw [trialRange, List.mem_range'] at hm
    obtain ⟨j, hj, rfl⟩ := hm
    omega
  · intro h
    rw [trialRange, List.mem_range']
    exact ⟨i - 2, by omega, by omega⟩

theorem is_prime_true_iff (n : Nat) :
    is_prime n = true ↔ ∀ i, 2 ≤ i → i ≤ roundSqrt n → ¬(i ∣ n) := by
  simp only [is_prime, List.all_eq_true, bne_iff_ne, ne_eq]
  constructor
  · intro h i h2 hle hdvd
    obtain ⟨c, rfl⟩ := hdvd
    exact h i (mem_trialRange.mpr ⟨h2, hle⟩) (Nat.mul_mod_right i c)
  · intro h i hm
    obtain ⟨h2, hle⟩ := mem_trialRange.mp hm
    intro hmod
    exact h i h2 hle (Nat.dvd_of_mod_eq_zero hmod)

theorem is_prime_iff {n : Nat} (hn : 2 ≤ n) : is_prime n = true ↔ n.Prime := by
  rw [is_prime_true_iff]
  constructor
  · intro h
    by_contra hnp
    have hmp : (n.minFac).Prime := Nat.minFac_prime (by omega)
    have hsq : n.minFac ^ 2 ≤ n := Nat.minFac_sq_le_self (by omega) hnp
    have hle : n.minFac ≤ roundSqrt n :=
      le_trans (Nat.le_sqrt.mpr (by nlinarith)) (sqrt_le_roundSqrt n)
    exact h n.minFac hmp.two_le hle (Nat.minFac_dvd n)
  · intro hp i h2 hle hdvd
    rcases (Nat.Prime.eq_one_or_self_of_dvd hp i hdvd) with h1 | h1
    · omega
    · have := roundSqrt_lt_self hn
      omega

theorem evenizeDown_spec {k : Nat} (hk : 1 ≤ k) :
    evenizeDown k % 2 = 0 ∧ evenizeDown k + 1 ≤ k ∧ k ≤ evenizeDown k + 2 := by
  simp only [evenizeDown]
  split <;> rename_i h <;> simp only [bne_iff_ne, ne_eq, not_not] at h <;> omega

theorem evenizeUp_spec {k : Nat} (hk : 1 ≤ k) :
    evenizeUp k % 2 = 0 ∧ k ≤ evenizeUp k + 1 ∧ evenizeUp k ≤ k := by
  simp only [evenizeUp]
  split <;> rename_i h <;> simp only [bne_iff_ne, ne_eq, not_not] at h <;> omega

theorem downF_eq {fuel k j : Nat} (hj : is_prime (k - 2 * j + 1) = true)
    (hmin : ∀ j2, j2 < j → is_prime (k - 2 * j2 + 1) = false)
    (hfuel : j < fuel) : downF fuel k = k - 2 * j + 1 := by
  induction fuel generalizing k j with
  | zero => omega
  | succ f ih =>
    simp only [downF]
    by_cases h : is_prime (k + 1) = true
    · rw [if_pos h]
      rcases Nat.eq_zero_or_pos j with rfl | hq
      · omega
      · have h0 := hmin 0 hq
        simp only [Nat.mul_zero, Nat.sub_zero] at h0
        rw [h] at h0
        exact absurd h0 (by simp)
    · rw [if_neg h]
      have hj0 : j ≠ 0 := by
        rintro rfl
        simp only [Nat.mul_zero, Nat.sub_zero] at hj
        exact h hj
      have hk2 : 2 ≤ k := by
        by_contra hk
        interval_cases k
        · exact h (by decide)
        · exact h (by decide)
      have he1 : k - 2 - 2 * (j - 1) = k - 2 * j := by omega
      have he2 : k - 2 - 2 * (j - 1) + 1 = k - 2 * j + 1 := by omega
      have := ih (k := k - 2) (j := j - 1)
        (by rw [he2]; exact hj)
        (by
          intro j2 hj2
          have he3 : k - 2 - 2 * j2 + 1 = k - 2 * (j2 + 1) + 1 := by omega
          rw [he3]
          exact hmin (j2 + 1) (by omega))
        (by omega)
      rw [this]
      omega

theorem upF_eq {fuel k j : Nat} (hj : is_prime (k + 2 * j + 1) = true)
    (hmin : ∀ j2, j2 < j → is_prime (k + 2 * j2 + 1) = false)
    (hfuel : j < fuel) : upF fuel k = k + 2 * j + 1 := by
  induction fuel generalizing k j with
  | zero => omega
  | succ f ih =>
    simp only [upF]
    by_cases h : is_prime (k + 1) = true
    · rw [if_pos h]
      rcases Nat.eq_zero_or_pos j with rfl | hq
      · omega
      · have h0 := hmin 0 hq
        simp only [Nat.mul_zero, Nat.add_zero] at h0
        rw [h] at h0
        exact absurd h0 (by simp)
    · rw [if_neg h]
      have hj0 : j ≠ 0 := by
        rintro rfl
        simp only [Nat.mul_zero, Nat.add_zero] at hj
        exact h hj
      have he1 : k + 2 + 2 * (j - 1) + 1 = k + 2 * j + 1 := by omega
      have := ih (k := k + 2) (j := j - 1)
        (by rw [he1]; exact hj)
        (by
          intro j2 hj2
          have he3 : k + 2 + 2 * j2 + 1 = k + 2 * (j2 + 1) + 1 := by omega
          rw [he3]
          exact hmin (j2 + 1) (by omega))
        (by omega)
      rw [this]
      omega

theorem previous_prime_spec {k : Nat} (hk : 3 ≤ k) :
    Nat.Prime (previous_prime k) ∧ previous_prime k ≤ k ∧
      ∀ q, Nat.Prime q → q ≤ k → q ≤ previous_prime k := by
  obtain ⟨hm2, hmk, hkm⟩ := evenizeDown_spec (k := k) (by omega)
  set m := evenizeDown k with hm
  have hm1 : 2 ≤ m := by omega
  have hexw : is_prime (m - 2 * ((m - 2) / 2) + 1) = true := by
    have h3 : m - 2 * ((m - 2) / 2) + 1 = 3 := by omega
    rw [h3]
    decide
  have hex : ∃ j, is_prime (m - 2 * j + 1) = true := ⟨_, hexw⟩
  have hj0 : is_prime (m - 2 * Nat.find hex + 1) = true := Nat.find_spec hex
  have hj0min : ∀ j2, j2 < Nat.find hex → is_prime (m - 2 * j2 + 1) = false := by
    intro j2 h
    simpa using Nat.find_min hex h
  have hj0le : Nat.find hex ≤ (m - 2) / 2 := Nat.find_min' hex hexw
  have hpp : previous_prime k = m - 2 * Nat.find hex + 1 := by
    rw [previous_prime, ← hm]
    exact downF_eq hj0 hj0min (by omega)
  have hr3 : 3 ≤ m - 2 * Nat.find hex + 1 := by omega
  have hrprime : Nat.Prime (m - 2 * Nat.find hex + 1) :=
    (is_prime_iff (by omega)).mp hj0
  have hrk : m - 2 * Nat.find hex + 1 ≤ k := by omega
  refine ⟨hpp ▸ hrprime, hpp ▸ hrk, ?_⟩
  intro q hq hqk
  rw [hpp]
  by_contra hlt
  push_neg at hlt
  have hqodd : q % 2 = 1 := by
    rcases hq.eq_two_or_odd with h2 | h2
    · omega
    · exact h2
  have hjq : q = m - 2 * ((m + 1 - q) / 2) + 1 := by omega
  have hjqlt : (m + 1 - q) / 2 < Nat.find hex := by omega
  have hf := hj0min _ hjqlt
  rw [← hjq] at hf
  have ht := (is_prime_iff hq.two_le).mpr hq
  rw [ht] at hf
  exact absurd hf (by simp)

theorem next_prime_spec {k : Nat} (hk : 3 ≤ k) :
    Nat.Prime (next_prime k) ∧ k ≤ next_prime k ∧
      ∀ q, Nat.Prime q → k ≤ q → next_prime k ≤ q := by
  obtain ⟨hm2, hkm, hmk⟩ := evenizeUp_spec (k := k) (by omega)
  set m := evenizeUp k with hm
  obtain ⟨p, hp, hkp, hp2k⟩ := Nat.exists_prime_lt_and_le_two_mul k (by omega)
  have hpodd : p % 2 = 1 := by
    rcases hp.eq_two_or_odd with h2 | h2
    · omega
    · exact h2
  have hexw : is_prime (m + 2 * ((p - m - 1) / 2) + 1) = true := by
    have hep : m + 2 * ((p - m - 1) / 2) + 1 = p := by omega
    rw [hep]
    exact (is_prime_iff hp.two_le).mpr hp
  have hex : ∃ j, is_prime (m + 2 * j + 1) = true := ⟨_, hexw⟩
  have hj0 : is_prime (m + 2 * Nat.find hex + 1) = true := Nat.find_spec hex
  have hj0min : ∀ j2, j2 < Nat.find hex → is_prime (m + 2 * j2 + 1) = false := by
    intro j2 h
    simpa using Nat.find_min hex h
  have hj0le : Nat.find hex ≤ (p - m - 1) / 2 := Nat.find_min' hex hexw
  have hnp : next_prime k = m + 2 * Nat.find hex + 1 := by
    rw [next_prime, ← hm]
    exact upF_eq hj0 hj0min (by omega)
  have hrk : k ≤ m + 2 * Nat.find hex + 1 := by omega
  have hrprime : Nat.Prime (m + 2 * Nat.find hex + 1) :=
    (is_prime_iff (by omega)).mp hj0
  refine ⟨hnp ▸ hrprime, hnp ▸ hrk, ?_⟩
  intro q hq hkq
  rw [hnp]
  by_contra hlt
  push_neg at hlt
  have hqodd : q % 2 = 1 := by
    rcases hq.eq_two_or_odd with h2 | h2
    · omega
    · exact h2
  have hjq : q = m + 2 * ((q - m - 1) / 2) + 1 := by omega
  have hjqlt : (q - m - 1) / 2 < Nat.find hex := by omega
  have hf := hj0min _ hjqlt
  rw [← hjq] at hf
  have ht := (is_prime_iff hq.two_le).mpr hq
  rw [ht] at hf
  exact absurd hf (by simp)

/-- C1 (counterexample): the claim fails at k = 2.  previous_prime 2
evaluates to 1, which is not prime (the largest prime ≤ 2 is 2 itself);
next_prime 2 evaluates to 3 although 2 is a prime with 2 ≥ 2, so the
result is not the smallest prime ≥ 2. -/
theorem c1_counterexample :
    previous_prime 2 = 1 ∧ ¬ Nat.Prime (previous_prime 2) ∧
      next_prime 2 = 3 ∧ Nat.Prime 2 ∧ 2 ≤ (2 : Nat) ∧ next_prime 2 ≠ 2 := by
  refine ⟨by decide, ?_, by decide, Nat.prime_two, by decide, by decide⟩
  rw [(by decide : previous_prime 2 = 1)]
  exact Nat.not_prime_one

/-- C1 (amended): for every k ≥ 3, previous_prime k is the largest prime
≤ k (it is prime, ≤ k, and every prime ≤ k is ≤ it) and next_prime k is
the smallest prime ≥ k (it is prime, ≥ k, and is ≤ every prime ≥ k).
At k = 2 both of these fail (see the counterexample): the search only
probes odd candidates, and from k = 2 it skips the prime 2 itself. -/
theorem c1_prev_next_prime {k : Nat} (hk : 3 ≤ k) :
    (Nat.Prime (previous_prime k) ∧ previous_prime k ≤ k ∧
      ∀ q, Nat.Prime q → q ≤ k → q ≤ previous_prime k) ∧
    (Nat.Prime (next_prime k) ∧ k ≤ next_prime k ∧
      ∀ q, Nat.Prime q → k ≤ q → next_prime k ≤ q) :=
  ⟨previous_prime_spec hk, next_prime_spec hk⟩

/-- Witness for C1 at k = 10: previous_prime 10 = 7, next_prime 10 = 11. -/
theorem c1_witness :
    3 ≤ 10 ∧
      ((Nat.Prime (previous_prime 10) ∧ previous_prime 10 ≤ 10 ∧
        ∀ q, Nat.Prime q → q ≤ 10 → q ≤ previous_prime 10) ∧
       (Nat.Prime (next_prime 10) ∧ 10 ≤ next_prime 10 ∧
        ∀ q, Nat.Prime q → 10 ≤ q → next_prime 10 ≤ q)) :=
  ⟨by decide, c1_prev_next_prime (by decide)⟩

/-- C10 (counterexample): the claim asserts the trial-division range
range(2, round(sqrt(n)) + 1) is empty for every n < 4, but at n = 3 it
is [2] (round(sqrt(3)) = 2), not empty. -/
theorem c10_counterexample :
    (3 : Nat) < 4 ∧ trialRange 3 = [2] ∧ trialRange 3 ≠ [] := by decide

/-- C10 (amended): is_prime 0 and is_prime 1 both evaluate to true; for
every nonnegative n < 3 (not n < 4) the trial-division range is empty,
and is_prime reports every nonnegative input below 2 as prime. -/
theorem c10_is_prime_small :
    is_prime 0 = true ∧ is_prime 1 = true ∧
      (∀ n, n < 3 → trialRange n = []) ∧ ∀ n, n < 2 → is_prime n = true := by
  refine ⟨by decide, by decide, ?_, ?_⟩ <;> intro n h <;> interval_cases n <;> decide

/-- Witness for C10 at n = 2 and n = 0. -/
theorem c10_witness : trialRange 2 = [] ∧ is_prime 0 = true :=
  ⟨c10_is_prime_small.2.2.1 2 (by omega), c10_is_prime_small.1⟩

theorem roundSqrt_mono {m n : Nat} (h : m ≤ n) : roundSqrt m ≤ roundSqrt n := by
  have hs := Nat.sqrt_le_sqrt h
  rcases Nat.lt_or_ge (Nat.sqrt m) (Nat.sqrt n) with hlt | hge
  · have h1 := roundSqrt_le_sqrt_succ m
    have h2 := sqrt_le_roundSqrt n
    omega
  · have heq : Nat.sqrt m = Nat.sqrt n := by omega
    simp only [roundSqrt, isqrt_eq_sqrt, heq]
    split <;> split <;> omega

theorem trialLoopF_spec (fuel : Nat) :
    ∀ n i, 2 ≤ i → 1 ≤ n → n + (roundSqrt n + 2 - i) + 1 ≤ fuel →
      (∀ d, 2 ≤ d → d < i → ¬ d ∣ n) →
      (trialLoopF fuel n i).1.prod * (trialLoopF fuel n i).2 = n ∧
        (∀ e, e ∈ (trialLoopF fuel n i).1 → Nat.Prime e) ∧
        ((trialLoopF fuel n i).2 = 1 ∨ Nat.Prime (trialLoopF fuel n i).2) := by
  induction fuel with
  | zero => intro n i h2 h1 hf hd; omega
  | succ f ih =>
    intro n i h2 h1 hf hd
    simp only [trialLoopF]
    by_cases hle : i ≤ roundSqrt n + 1
    · rw [if_pos hle]
      by_cases hmod : n % i = 0
      · have hdvd : i ∣ n := Nat.dvd_of_mod_eq_zero hmod
        rw [if_pos (by simpa using hmod)]
        have hni1 : 1 ≤ n / i :=
          (Nat.one_le_div_iff (by omega)).mpr (Nat.le_of_dvd (by omega) hdvd)
        have hlt : n / i < n := Nat.div_lt_self (by omega) (by omega)
        have hRle : roundSqrt (n / i) ≤ roundSqrt n := roundSqrt_mono (Nat.div_le_self n i)
        have hdn : ∀ d, 2 ≤ d → d < i → ¬ d ∣ n / i := by
          intro d hd2 hdi hdvd2
          exact hd d hd2 hdi (hdvd2.trans (Nat.div_dvd_of_dvd hdvd))
        have hr := ih (n / i) i h2 hni1 (by omega) hdn
        have hiprime : Nat.Prime i := by
          rw [Nat.prime_def_lt']
          exact ⟨h2, fun m hm2 hmi hmdvd => hd m hm2 hmi (hmdvd.trans hdvd)⟩
        refine ⟨?_, ?_, hr.2.2⟩
        · rw [List.prod_cons, Nat.mul_assoc, hr.1, Nat.mul_div_cancel' hdvd]
        · intro e he
          rcases List.mem_cons.mp he with rfl | he2
          · exact hiprime
          · exact hr.2.1 e he2
      · rw [if_neg (by simpa using hmod)]
        have hdn : ∀ d, 2 ≤ d → d < i + 1 → ¬ d ∣ n := by
          intro d hd2 hdi hdvd2
          rcases Nat.lt_or_ge d i with hlt | hge
          · exact hd d hd2 hlt hdvd2
          · have hdi2 : d = i := by omega
            subst hdi2
            obtain ⟨c, rfl⟩ := hdvd2
            exact hmod (Nat.mul_mod_right d c)
        exact ih n (i + 1) (by omega) h1 (by omega) hdn
    · rw [if_neg hle]
      refine ⟨by simp, by simp, ?_⟩
      rcases Nat.eq_or_lt_of_le h1 with h1e | h1e
      · exact Or.inl h1e.symm
      · right
        by_contra hnp
        have hmp := Nat.minFac_prime (n := n) (by omega)
        have hsq : n.minFac ^ 2 ≤ n := Nat.minFac_sq_le_self (by omega) hnp
        have hle2 : n.minFac ≤ roundSqrt n :=
          le_trans (Nat.le_sqrt.mpr (by nlinarith)) (sqrt_le_roundSqrt n)
        exact hd n.minFac hmp.two_le (by omega) (Nat.minFac_dvd n)

theorem groupFactors_mem : ∀ (l : List Nat) (x : Nat), x ∈ l → x ∈ (groupFactors l).1 := by
  intro l
  induction l with
  | nil => simp
  | cons a t iht =>
    cases t with
    | nil =>
      intro x hx
      simpa [groupFactors] using hx
    | cons b t2 =>
      intro x hx
      simp only [groupFactors]
      by_cases hab : a = b
      · rw [if_pos (by simpa using hab)]
        rcases List.mem_cons.mp hx with rfl | hx2
        · exact iht x (by rw [hab]; exact List.mem_cons_self b t2)
        · exact iht x hx2
      · rw [if_neg (by simpa using hab)]
        rcases List.mem_cons.mp hx with rfl | hx2
        · exact List.mem_cons_self x _
        · exact List.mem_cons_of_mem a (iht x hx2)

theorem groupFactors_subset :
    ∀ (l : List Nat) (x : Nat), x ∈ (groupFactors l).1 → x ∈ l := by
  intro l
  induction l with
  | nil => simp [groupFactors]
  | cons a t iht =>
    cases t with
    | nil =>
      intro x hx
      simpa [groupFactors] using hx
    | cons b t2 =>
      intro x hx
      simp only [groupFactors] at hx
      by_cases hab : a = b
      · rw [if_pos (by simpa using hab)] at hx
        exact List.mem_cons_of_mem a (iht x hx)
      · rw [if_neg (by simpa using hab)] at hx
        rcases List.mem_cons.mp hx with rfl | hx2
        · exact List.mem_cons_self x _
        · exact List.mem_cons_of_mem a (iht x hx2)

theorem prime_facto_spec {n : Nat} (hn : 2 ≤ n) :
    ∃ fs ps, prime_facto n = some (fs, ps) ∧
      (∀ q, Nat.Prime q → q ∣ n → q ∈ fs) ∧
      (∀ e, e ∈ fs → Nat.Prime e) := by
  have h := trialLoopF_spec (n + roundSqrt n + 2) n 2 (by omega) (by omega) (by omega)
    (by intro d hd2 hdlt; omega)
  obtain ⟨hprod, hall, hres⟩ := h
  set t := trialLoopF (n + roundSqrt n + 2) n 2 with ht
  have hmemfac : ∀ q, Nat.Prime q → q ∣ n →
      q ∈ (if t.2 != 1 then t.1 ++ [t.2] else t.1) := by
    intro q hq hqd
    rw [← hprod] at hqd
    rcases (Nat.Prime.prime hq).dvd_mul.mp hqd with hq1 | hq2
    · obtain ⟨e, he, hqe⟩ := (Nat.Prime.prime hq).dvd_prod_iff.mp hq1
      have : q = e := (Nat.prime_dvd_prime_iff_eq hq (hall e he)).mp hqe
      subst this
      split <;> simp [he]
    · rcases hres with h1 | h1
      · rw [h1] at hq2
        exact absurd (Nat.le_of_dvd (by omega) hq2) (by have := hq.two_le; omega)
      · have : q = t.2 := (Nat.prime_dvd_prime_iff_eq hq h1).mp hq2
        subst this
        have : t.2 != 1 := by
          have := h1.two_le
          simp only [bne_iff_ne, ne_eq]
          omega
        rw [if_pos this]
        simp
  have hallfac : ∀ e, e ∈ (if t.2 != 1 then t.1 ++ [t.2] else t.1) → Nat.Prime e := by
    intro e he
    rcases Nat.eq_or_lt_of_le (Nat.one_le_iff_ne_zero.mpr (by rintro h0; rw [h0] at hprod; omega) :
        1 ≤ t.2) with h1 | h1
    · rw [if_neg (by simp [← h1])] at he
      exact hall e he
    · rw [if_pos (by simp; omega)] at he
      rcases List.mem_append.mp he with he2 | he2
      · exact hall e he2
      · have : e = t.2 := by simpa using he2
        subst this
        rcases hres with hr | hr
        · omega
        · exact hr
  have hne : (if t.2 != 1 then t.1 ++ [t.2] else t.1) ≠ [] := by
    intro hemp
    by_cases h12 : t.2 = 1
    · rw [if_neg (by simp [h12])] at hemp
      rw [hemp, h12] at hprod
      simp at hprod
      omega
    · rw [if_pos (by simpa using h12)] at hemp
      simp at hemp
  rcases hfac : (if t.2 != 1 then t.1 ++ [t.2] else t.1) with _ | ⟨a, rest⟩
  · exact absurd hfac hne
  · refine ⟨(groupFactors (a :: rest)).1, (groupFactors (a :: rest)).2, ?_, ?_, ?_⟩
    · rw [prime_facto, ← ht, hfac]
    · intro q hq hqd
      exact groupFactors_mem _ q (hfac ▸ hmemfac q hq hqd)
    · intro e he
      exact hallfac e (hfac ▸ groupFactors_subset _ e he)

theorem checkFactors_spec {c k : Nat} :
    ∀ {fs : List Nat}, checkFactors c k fs = some true →
      ∀ q, q ∈ fs → q ≠ 0 ∧ 2 ^ (k / q) % c ≠ 1 := by
  intro fs
  induction fs with
  | nil =>
    intro _ q hq
    simp at hq
  | cons a t iht =>
    intro h q hq
    simp only [checkFactors] at h
    by_cases ha : a = 0
    · rw [if_pos (by simpa using ha)] at h
      exact absurd h (by simp)
    · rw [if_neg (by simpa using ha)] at h
      by_cases hpow : 2 ^ (k / a) % c = 1
      · rw [if_pos (by simpa using hpow)] at h
        exact absurd h (by simp)
      · rw [if_neg (by simpa using hpow)] at h
        rcases List.mem_cons.mp hq with rfl | hq2
        · exact ⟨ha, hpow⟩
        · exact iht h q hq2

theorem checkFactors_total {c k : Nat} :
    ∀ {fs : List Nat}, (∀ q, q ∈ fs → q ≠ 0) →
      ∃ b, checkFactors c k fs = some b := by
  intro fs
  induction fs with
  | nil => intro _; exact ⟨true, rfl⟩
  | cons a t iht =>
    intro hnz
    simp only [checkFactors]
    rw [if_neg (by simpa using hnz a (List.mem_cons_self a t))]
    by_cases hpow : 2 ^ (k / a) % c = 1
    · rw [if_pos (by simpa using hpow)]
      exact ⟨false, rfl⟩
    · rw [if_neg (by simpa using hpow)]
      exact iht (fun q hq => hnz q (List.mem_cons_of_mem a hq))

theorem upNA_some {fuel : Nat} :
    ∀ {k p : Nat}, upNA fuel k = some p →
      is_prime p = true ∧ na_check p = some true ∧ k + 1 ≤ p ∧ p % 2 = (k + 1) % 2 := by
  induction fuel with
  | zero =>
    intro k p h
    simp [upNA] at h
  | succ f ih =>
    intro k p h
    simp only [upNA] at h
    by_cases hp : is_prime (k + 1) = true
    · rw [if_pos hp] at h
      cases hb : na_check (k + 1) with
      | none =>
        rw [hb] at h
        exact absurd h (by simp)
      | some b =>
        rw [hb] at h
        cases b with
        | false =>
          have h2 : upNA f (k + 2) = some p := h
          obtain ⟨ha, hc, hge, hpar⟩ := ih h2
          exact ⟨ha, hc, by omega, by omega⟩
        | true =>
          have h2 : p = k + 1 := (Option.some.inj h).symm
          subst h2
          exact ⟨hp, hb, le_refl _, rfl⟩
    · rw [if_neg hp] at h
      obtain ⟨ha, hc, hge, hpar⟩ := ih h
      exact ⟨ha, hc, by omega, by omega⟩

theorem na_order {p : Nat} (hp : Nat.Prime p) (hodd : p % 2 = 1) (hp3 : 3 ≤ p)
    (hch : ∀ q, Nat.Prime q → q ∣ p - 1 → 2 ^ ((p - 1) / q) % p ≠ 1) :
    orderOf (2 : ZMod p) = p - 1 := by
  haveI : Fact (Nat.Prime p) := ⟨hp⟩
  haveI : Fact (1 < p) := ⟨by omega⟩
  have h2ne : (2 : ZMod p) ≠ 0 := by
    have h2 : ((2 : Nat) : ZMod p) ≠ 0 := by
      rw [Ne, ZMod.natCast_zmod_eq_zero_iff_dvd]
      intro hdvd
      have := Nat.le_of_dvd (by norm_num) hdvd
      omega
    simpa using h2
  apply orderOf_eq_of_pow_and_pow_div_prime (by omega)
  · exact ZMod.pow_card_sub_one_eq_one h2ne
  · intro q hq hqdvd hpow
    apply hch q hq hqdvd
    have hcast : ((2 ^ ((p - 1) / q) % p : Nat) : ZMod p) = 1 := by
      rw [ZMod.natCast_mod]
      push_cast
      simpa using hpow
    have hlt : 2 ^ ((p - 1) / q) % p < p := Nat.mod_lt _ (by omega)
    have hval := congrArg ZMod.val hcast
    rw [ZMod.val_natCast_of_lt hlt, ZMod.val_one] at hval
    exact hval

/-- C3: whenever the next_na_set search returns a value p for an input
k ≥ 2 (with any fuel), p is a prime ≥ k, the multiplicative order of 2
mod p is p - 1, and prime_facto (p - 1) succeeded with a factor list
whose every entry q passed the test 2 ^ ((p-1)/q) mod p ≠ 1. -/
theorem c3_next_na_set {k p fuel : Nat} (hk : 2 ≤ k)
    (h : next_na_set fuel k = some p) :
    Nat.Prime p ∧ k ≤ p ∧ orderOf (2 : ZMod p) = p - 1 ∧
      ∃ fs ps, prime_facto (p - 1) = some (fs, ps) ∧
        ∀ q, q ∈ fs → 2 ^ ((p - 1) / q) % p ≠ 1 := by
  obtain ⟨hm2, hkm, hmk⟩ := evenizeUp_spec (k := k) (by omega)
  obtain ⟨hip, hna, hge, hpar⟩ := upNA_some h
  have hm2' : 2 ≤ evenizeUp k := by omega
  have hp3 : 3 ≤ p := by omega
  have hkp : k ≤ p := by omega
  have hpprime : Nat.Prime p := (is_prime_iff (by omega)).mp hip
  have hpodd : p % 2 = 1 := by omega
  obtain ⟨fs, ps, hpf, hmem, hfsp⟩ := prime_facto_spec (n := p - 1) (by omega)
  have hcf : checkFactors p (p - 1) fs = some true := by
    rw [na_check, hpf] at hna
    exact hna
  have hch := checkFactors_spec hcf
  refine ⟨hpprime, hkp, ?_, fs, ps, hpf, fun q hq => (hch q hq).2⟩
  exact na_order hpprime hpodd hp3 (fun q hq hqd => (hch q (hmem q hq hqd)).2)

/-- Witness for C3 at k = 3, fuel = 5: next_na_set returns 3, and 2 is a
primitive root mod 3. -/
theorem c3_witness :
    2 ≤ 3 ∧ next_na_set 5 3 = some 3 ∧
      (Nat.Prime 3 ∧ 3 ≤ 3 ∧ orderOf (2 : ZMod 3) = 3 - 1 ∧
        ∃ fs ps, prime_facto (3 - 1) = some (fs, ps) ∧
          ∀ q, q ∈ fs → 2 ^ ((3 - 1) / q) % 3 ≠ 1) :=
  ⟨by decide, by decide, @c3_next_na_set 3 3 5 (by decide) (by decide)⟩

theorem downNA_eq {fuel m j : Nat}
    (hjp : is_prime (m - 2 * j + 1) = true)
    (hjc : na_check (m - 2 * j + 1) = some true)
    (hmin : ∀ j2, j2 < j →
      is_prime (m - 2 * j2 + 1) = false ∨ na_check (m - 2 * j2 + 1) = some false)
    (hfuel : j < fuel) : downNA fuel m = some (m - 2 * j + 1) := by
  induction fuel generalizing m j with
  | zero => omega
  | succ f ih =>
    simp only [downNA]
    by_cases hp : is_prime (m + 1) = true
    · rw [if_pos hp]
      rcases Nat.eq_zero_or_pos j with rfl | hq
      · simp only [Nat.mul_zero, Nat.sub_zero] at hjc ⊢
        rw [hjc]
      · have h0 := hmin 0 hq
        simp only [Nat.mul_zero, Nat.sub_zero] at h0
        rcases h0 with h0 | h0
        · rw [hp] at h0
          exact absurd h0 (by simp)
        · rw [h0]
          have hm2 : 2 ≤ m := by
            by_contra hm
            interval_cases m
            · rw [(by norm_num : 0 - 2 * 0 + 1 = 1)] at h0
              exact absurd h0 (by decide)
            · rw [(by norm_num : 1 - 2 * 0 + 1 = 2)] at h0
              exact absurd h0 (by decide)
          have he1 : m - 2 - 2 * (j - 1) + 1 = m - 2 * j + 1 := by omega
          have := ih (m := m - 2) (j := j - 1)
            (by rw [he1]; exact hjp)
            (by rw [he1]; exact hjc)
            (by
              intro j2 hj2
              have he3 : m - 2 - 2 * j2 + 1 = m - 2 * (j2 + 1) + 1 := by omega
              rw [he3]
              exact hmin (j2 + 1) (by omega))
            (by omega)
          rw [this, he1]
    · rw [if_neg hp]
      have hj0 : j ≠ 0 := by
        rintro rfl
        simp only [Nat.mul_zero, Nat.sub_zero] at hjp
        exact hp hjp
      have hm2 : 2 ≤ m := by
        by_contra hm
        interval_cases m
        · exact hp (by decide)
        · exact hp (by decide)
      have he1 : m - 2 - 2 * (j - 1) + 1 = m - 2 * j + 1 := by omega
      have := ih (m := m - 2) (j := j - 1)
        (by rw [he1]; exact hjp)
        (by rw [he1]; exact hjc)
        (by
          intro j2 hj2
          have he3 : m - 2 - 2 * j2 + 1 = m - 2 * (j2 + 1) + 1 := by omega
          rw [he3]
          exact hmin (j2 + 1) (by omega))
        (by omega)
      rw [this, he1]

theorem na_check_total {c : Nat} (hc : 3 ≤ c) : ∃ b, na_check c = some b := by
  obtain ⟨fs, ps, hpf, hmem, hfsp⟩ := prime_facto_spec (n := c - 1) (by omega)
  obtain ⟨b, hb⟩ := checkFactors_total (c := c) (k := c - 1)
    (fun q hq => (hfsp q hq).pos.ne')
  exact ⟨b, by rw [na_check, hpf]; exact hb⟩

theorem previous_na_set_spec {k : Nat} (hk : 3 ≤ k) :
    ∃ pp, previous_na_set k = some pp ∧ 3 ≤ pp ∧ pp ≤ k := by
  obtain ⟨hm2, hmk, hkm⟩ := evenizeDown_spec (k := k) (by omega)
  set m := evenizeDown k with hm
  have hm1 : 2 ≤ m := by omega
  have h3c : m - 2 * ((m - 2) / 2) + 1 = 3 := by omega
  have hgood3 : is_prime (m - 2 * ((m - 2) / 2) + 1) = true ∧
      na_check (m - 2 * ((m - 2) / 2) + 1) = some true := by
    rw [h3c]
    exact ⟨by decide, by decide⟩
  have hex : ∃ j, is_prime (m - 2 * j + 1) = true ∧
      na_check (m - 2 * j + 1) = some true := ⟨(m - 2) / 2, hgood3⟩
  have hj0 := Nat.find_spec hex
  have hj0le : Nat.find hex ≤ (m - 2) / 2 := Nat.find_min' hex hgood3
  have hmin : ∀ j2, j2 < Nat.find hex →
      is_prime (m - 2 * j2 + 1) = false ∨ na_check (m - 2 * j2 + 1) = some false := by
    intro j2 hj2
    have hng := Nat.find_min hex hj2
    by_cases hip : is_prime (m - 2 * j2 + 1) = true
    · right
      have hc3 : 3 ≤ m - 2 * j2 + 1 := by omega
      obtain ⟨b, hb⟩ := na_check_total hc3
      cases b with
      | true => exact absurd ⟨hip, hb⟩ hng
      | false => exact hb
    · left
      simpa using hip
  have hdn := @downNA_eq (m / 2 + 2) m (Nat.find hex) hj0.1 hj0.2 hmin (by omega)
  refine ⟨m - 2 * Nat.find hex + 1, ?_, by omega, by omega⟩
  rw [previous_na_set, ← hm]
  exact hdn

/-- C5 (counterexample): at k = 2 the na_set half of the claim fails:
previous_na_set 2 reaches the candidate 1, factors 0 into [0], and the
check divides by the factor 0 (Python ZeroDivisionError), so
previous_na_set 2 and hence closest_na_set 2 produce no value at all
(next_na_set 2 does return 3). -/
theorem c5_counterexample :
    previous_na_set 2 = none ∧ next_na_set 5 2 = some 3 ∧
      closest_na_set 5 2 = none := by decide

/-- C5 (amended): for every k ≥ 2, closest_prime k equals
previous_prime k when next_prime k - k ≥ k - previous_prime k and
next_prime k otherwise (ties toward the previous); the same relation
holds for closest_na_set with previous_na_set and next_na_set for every
k ≥ 3 for which next_na_set returns (at k = 2 previous_na_set raises, so
closest_na_set fails rather than satisfying the relation). -/
theorem c5_closest {k : Nat} (hk : 2 ≤ k) :
    closest_prime k =
      (if next_prime k - k ≥ k - previous_prime k then previous_prime k
       else next_prime k) ∧
    (3 ≤ k → ∀ fuel np, next_na_set fuel k = some np →
      ∃ pp, previous_na_set k = some pp ∧
        closest_na_set fuel k = some (if np - k ≥ k - pp then pp else np)) := by
  refine ⟨rfl, ?_⟩
  intro hk3 fuel np hnp
  obtain ⟨pp, hpp, hpp3, hppk⟩ := previous_na_set_spec hk3
  refine ⟨pp, hpp, ?_⟩
  rw [closest_na_set, hnp, hpp]

/-- Witness for C5 at k = 10, fuel = 2: next_na_set returns 11,
previous_na_set returns 5, and closest_na_set picks 11. -/
theorem c5_witness :
    2 ≤ 10 ∧ next_na_set 2 10 = some 11 ∧
      ∃ pp, previous_na_set 10 = some pp ∧
        closest_na_set 2 10 = some (if 11 - 10 ≥ 10 - pp then pp else 11) :=
  ⟨by decide, by decide, (c5_closest (by decide)).2 (by decide) 2 11 (by decide)⟩

theorem von_neumann_length : ∀ l : List Nat, (von_neumann l).length ≤ l.length / 2
  | [] => by simp [von_neumann]
  | [_] => by simp [von_neumann]
  | x :: y :: rest => by
    have ih := von_neumann_length rest
    simp only [von_neumann]
    split
    · simp only [List.length_cons]
      omega
    · simp only [List.length_cons]
      omega

/-- C6: von_neumann consumes its input in consecutive disjoint pairs,
emitting the first bit of each differing pair and nothing otherwise
(stated as the defining pair equations), discards a trailing unpaired
bit, maps [0,1,1,0,1,1,0,0] to [0,1], maps [] and [1] to [], and its
output length is at most floor(input length / 2). -/
theorem c6_von_neumann :
    (∀ x y rest, von_neumann (x :: y :: rest) =
      (if x ≠ y then [x] else []) ++ von_neumann rest) ∧
    von_neumann [] = [] ∧ (∀ x, von_neumann [x] = []) ∧
    von_neumann [0, 1, 1, 0, 1, 1, 0, 0] = [0, 1] ∧
    ∀ l : List Nat, (von_neumann l).length ≤ l.length / 2 := by
  refine ⟨?_, rfl, fun x => rfl, by decide, von_neumann_length⟩
  intro x y rest
  simp only [von_neumann]
  by_cases h : x = y
  · rw [if_neg (by simpa using h), if_neg (by simpa using h)]
    simp
  · rw [if_pos (by simpa using h), if_pos (by simpa using h)]
    simp

theorem testBit_setBitRaw (v bit : Nat) (x : Bool) {j : Nat} (hj : j < 8) (hb : bit < 8) :
    (CompactBoolList.setBitRaw v bit x).testBit j =
      if j = bit then x else v.testBit j := by
  have h255 : (255 : Nat) = 2 ^ 8 - 1 := by norm_num
  cases x with
  | true =>
    simp only [CompactBoolList.setBitRaw, if_true, Nat.one_shiftLeft]
    rw [Nat.testBit_or, Nat.testBit_two_pow]
    by_cases h : j = bit
    · subst h
      simp
    · simp [h, Ne.symm h]
  | false =>
    simp only [CompactBoolList.setBitRaw, Bool.false_eq_true, if_false, Nat.one_shiftLeft]
    rw [Nat.testBit_and, Nat.testBit_xor, Nat.testBit_two_pow]
    have h2 : (255 : Nat).testBit j = true := by
      rw [h255, Nat.testBit_two_pow_sub_one]
      simpa using hj
    rw [h2]
    by_cases h : j = bit
    · subst h
      simp
    · simp [h, Ne.symm h]

theorem getD_set_self (l : List Nat) (n a : Nat) (h : n < l.length) :
    (l.set n a).getD n 0 = a := by
  simp [List.getD_eq_getElem?_getD, List.getElem?_set_self h]

theorem getD_set_ne (l : List Nat) {n m : Nat} (a : Nat) (h : n ≠ m) :
    (l.set n a).getD m 0 = l.getD m 0 := by
  simp [List.getD_eq_getElem?_getD, List.getElem?_set_ne h]

theorem bitAt_eq_testBit (s : CompactBoolList) (j : Nat) :
    s.bitAt j = (s.data.getD (j / 8) 0).testBit (j % 8) := by
  simp only [CompactBoolList.bitAt, Nat.one_shiftLeft, Nat.and_two_pow]
  cases h : (s.data.getD (j / 8) 0).testBit (j % 8) <;> simp [h]

theorem bitAt_setAt_self (s : CompactBoolList) (j : Nat) (b : Bool)
    (h : j / 8 < s.data.length) : (s.setAt j b).bitAt j = b := by
  rw [bitAt_eq_testBit]
  simp only [CompactBoolList.setAt]
  rw [getD_set_self _ _ _ h]
  rw [testBit_setBitRaw _ _ _ (Nat.mod_lt _ (by norm_num)) (Nat.mod_lt _ (by norm_num))]
  simp

theorem bitAt_setAt_ne (s : CompactBoolList) {j j2 : Nat} (b : Bool) (h : j ≠ j2) :
    (s.setAt j b).bitAt j2 = s.bitAt j2 := by
  rw [bitAt_eq_testBit, bitAt_eq_testBit]
  simp only [CompactBoolList.setAt]
  by_cases hb : j / 8 = j2 / 8
  · rw [hb]
    by_cases hlen : j2 / 8 < s.data.length
    · rw [getD_set_self _ _ _ hlen]
      rw [testBit_setBitRaw _ _ _ (Nat.mod_lt _ (by norm_num)) (Nat.mod_lt _ (by norm_num))]
      rw [if_neg (by omega)]
    · rw [List.set_eq_of_length_le (by omega)]
  · rw [getD_set_ne _ _ hb]

theorem getD_append_zero (l : List Nat) (i : Nat) :
    ((l ++ [0])[i]?).getD 0 = (l[i]?).getD 0 := by
  rcases Nat.lt_trichotomy i l.length with h | h | h
  · rw [List.getElem?_append_left h]
  · subst h
    rw [List.getElem?_concat_length, List.getElem?_eq_none (le_refl _)]
    rfl
  · rw [List.getElem?_append_right (by omega), List.getElem?_eq_none (l := l) (by omega),
      List.getElem?_eq_none (by simp; omega)]

theorem append_length (s : CompactBoolList) (b : Bool) :
    (s.append b).length = s.length + 1 := rfl

theorem append_index (s : CompactBoolList) (b : Bool) :
    (s.append b).index = s.index := by
  by_cases h : s.length % 8 = 0 <;>
    simp [CompactBoolList.append, CompactBoolList.setAt, h]

theorem append_data (s : CompactBoolList) (b : Bool) :
    (s.append b).data =
      (if s.length % 8 = 0 then s.data ++ [0] else s.data).set (s.length / 8)
        (CompactBoolList.setBitRaw
          ((if s.length % 8 = 0 then s.data ++ [0] else s.data).getD (s.length / 8) 0)
          (s.length % 8) b) := by
  by_cases h : s.length % 8 = 0 <;>
    simp [CompactBoolList.append, CompactBoolList.setAt, h]

theorem append_data_length {s : CompactBoolList} (hinv : s.data.length = (s.length + 7) / 8)
    (b : Bool) :
    (s.append b).data.length = s.data.length + (if s.length % 8 = 0 then 1 else 0) ∧
      (s.append b).data.length = (s.length + 1 + 7) / 8 := by
  rw [append_data]
  by_cases h : s.length % 8 = 0 <;> simp [h] <;> omega

theorem append_bitAt_last {s : CompactBoolList}
    (hinv : s.data.length = (s.length + 7) / 8) (b : Bool) :
    (s.append b).bitAt s.length = b := by
  have hlt : s.length / 8 <
      (if s.length % 8 = 0 then s.data ++ [0] else s.data).length := by
    by_cases h : s.length % 8 = 0 <;> simp [h] <;> omega
  rw [bitAt_eq_testBit, append_data, getD_set_self _ _ _ hlt,
    testBit_setBitRaw _ _ _ (Nat.mod_lt _ (by norm_num)) (Nat.mod_lt _ (by norm_num))]
  simp

theorem append_bitAt_lt {s : CompactBoolList}
    (hinv : s.data.length = (s.length + 7) / 8) (b : Bool) {j : Nat}
    (hj : j < s.length) : (s.append b).bitAt j = s.bitAt j := by
  rw [bitAt_eq_testBit, bitAt_eq_testBit, append_data]
  by_cases hb : j / 8 = s.length / 8
  · have hlt : s.length / 8 <
        (if s.length % 8 = 0 then s.data ++ [0] else s.data).length := by
      by_cases h : s.length % 8 = 0 <;> simp [h] <;> omega
    rw [hb, getD_set_self _ _ _ hlt,
      testBit_setBitRaw _ _ _ (Nat.mod_lt _ (by norm_num)) (Nat.mod_lt _ (by norm_num)),
      if_neg (by omega)]
    by_cases h : s.length % 8 = 0 <;> simp [h, getD_append_zero]
  · rw [getD_set_ne _ _ (by omega : s.length / 8 ≠ j / 8)]
    by_cases h : s.length % 8 = 0 <;> simp [h, getD_append_zero]

theorem foldl_append_spec :
    ∀ (l : List Bool) (s : CompactBoolList),
      s.data.length = (s.length + 7) / 8 →
      (l.foldl (fun s2 b => s2.append b) s).length = s.length + l.length ∧
        (l.foldl (fun s2 b => s2.append b) s).index = s.index ∧
        (l.foldl (fun s2 b => s2.append b) s).data.length =
          (s.length + l.length + 7) / 8 ∧
        (∀ j, j < s.length →
          (l.foldl (fun s2 b => s2.append b) s).bitAt j = s.bitAt j) ∧
        (∀ i, i < l.length →
          (l.foldl (fun s2 b => s2.append b) s).bitAt (s.length + i) = l.getD i false) := by
  intro l
  induction l with
  | nil =>
    intro s hinv
    refine ⟨by simp, by simp, by simpa using hinv, by intro j h; simp, by intro i h; simp at h⟩
  | cons b t iht =>
    intro s hinv
    have hinv2 : (s.append b).data.length = ((s.append b).length + 7) / 8 := by
      rw [append_length]
      exact (append_data_length hinv b).2
    have hrec := iht (s.append b) hinv2
    simp only [List.foldl_cons]
    refine ⟨?_, ?_, ?_, ?_, ?_⟩
    · rw [hrec.1, append_length]
      simp only [List.length_cons]
      omega
    · rw [hrec.2.1, append_index]
    · rw [hrec.2.2.1, append_length]
      simp only [List.length_cons]
      omega
    · intro j hj
      have hj2 : j < (s.append b).length := by rw [append_length]; omega
      rw [hrec.2.2.2.1 j hj2, append_bitAt_lt hinv b hj]
    · intro i hi
      cases i with
      | zero =>
        have h0 : s.length + 0 < (s.append b).length := by rw [append_length]; omega
        rw [hrec.2.2.2.1 _ h0]
        simpa using append_bitAt_last hinv b
      | succ i2 =>
        have he : s.length + (i2 + 1) = (s.append b).length + i2 := by
          rw [append_length]; omega
        rw [he, hrec.2.2.2.2 i2 (by simpa using hi)]
        rfl

theorem ofList_spec (l : List Bool) :
    (CompactBoolList.ofList l).length = l.length ∧
      (CompactBoolList.ofList l).index = 0 ∧
      (CompactBoolList.ofList l).data.length = (l.length + 7) / 8 ∧
      ∀ i, i < l.length → (CompactBoolList.ofList l).bitAt i = l.getD i false := by
  have h := foldl_append_spec l CompactBoolList.empty (by rfl)
  rw [CompactBoolList.ofList]
  have he1 : CompactBoolList.empty.length = 0 := rfl
  have he2 : CompactBoolList.empty.index = 0 := rfl
  refine ⟨?_, ?_, ?_, ?_⟩
  · rw [h.1, he1, Nat.zero_add]
  · rw [h.2.1, he2]
  · rw [h.2.2.1, he1, Nat.zero_add]
  · intro i hi
    have h5 := h.2.2.2.2 i hi
    rw [he1, Nat.zero_add] at h5
    exact h5

theorem getItem_natCast (s : CompactBoolList) {j : Nat} (hj : j < s.length) :
    s.getItem (j : Int) = some (s.bitAt j) := by
  rw [CompactBoolList.getItem, if_pos (by constructor <;> omega)]
  have hneg : ¬ ((j : Int) < 0) := by omega
  rw [if_neg hneg]
  simp

theorem getItem_none_iff (s : CompactBoolList) (i : Int) :
    s.getItem i = none ↔ ¬(-(s.length : Int) ≤ i ∧ i < (s.length : Int)) := by
  by_cases h : -(s.length : Int) ≤ i ∧ i < (s.length : Int) <;>
    simp [CompactBoolList.getItem, h]

theorem setItem_none_iff (s : CompactBoolList) (i : Int) (b : Bool) :
    s.setItem i b = none ↔ ¬(-(s.length : Int) ≤ i ∧ i < (s.length : Int)) := by
  by_cases h : -(s.length : Int) ≤ i ∧ i < (s.length : Int) <;>
    simp [CompactBoolList.setItem, h]

theorem toListAux_fst :
    ∀ (fuel : Nat) (s : CompactBoolList), s.length ≤ fuel + s.index →
      (CompactBoolList.toListAux fuel s).1 =
        (List.range' s.index (s.length - s.index)).map (fun j => s.bitAt j) := by
  intro fuel
  induction fuel with
  | zero =>
    intro s h
    have : s.length - s.index = 0 := by omega
    rw [this]
    simp [CompactBoolList.toListAux]
  | succ f ih =>
    intro s h
    simp only [CompactBoolList.toListAux, CompactBoolList.nextStep]
    by_cases hlt : s.index < s.length
    · rw [if_pos hlt, getItem_natCast s hlt]
      have hrec := ih { s with index := s.index + 1 }
        (by show s.length ≤ f + (s.index + 1); omega)
      have hbit : ∀ j, ({ s with index := s.index + 1 } : CompactBoolList).bitAt j =
          s.bitAt j := fun j => rfl
      simp only [hbit] at hrec
      have hr : s.length - s.index = (s.length - (s.index + 1)) + 1 := by omega
      rw [hr, List.range'_succ]
      simp only [List.map_cons]
      rw [← hrec]
    · rw [if_neg hlt]
      have : s.length - s.index = 0 := by omega
      rw [this]
      simp

theorem to_list_fst (s : CompactBoolList) (h : s.index = 0) :
    (CompactBoolList.to_list s).1 =
      (List.range' 0 s.length).map (fun j => s.bitAt j) := by
  rw [CompactBoolList.to_list, toListAux_fst _ s (by omega)]
  rw [h]
  simp

theorem range'_map_getD (l : List Bool) :
    (List.range' 0 l.length).map (fun j => l.getD j false) = l := by
  apply List.ext_getElem
  · simp
  · intro i h1 h2
    simp only [List.getElem_map, List.getElem_range']
    rw [List.getD_eq_getElem?_getD, List.getElem?_eq_getElem (by simpa using h2)]
    simp

/-- C4: for every list of bits and every index 0 ≤ i < length, the
buffer constructed from the list returns the i-th element of the list
at index i, and to_list on the freshly constructed buffer returns the
original list (construction round-trips). -/
theorem c4_roundtrip (l : List Bool) :
    (∀ i, i < l.length →
      (CompactBoolList.ofList l).getItem (i : Int) = some (l.getD i false)) ∧
    (CompactBoolList.ofList l).to_list.1 = l := by
  obtain ⟨hlen, hidx, hdata, hbit⟩ := ofList_spec l
  constructor
  · intro i hi
    rw [getItem_natCast _ (by omega), hbit i hi]
  · rw [to_list_fst _ hidx, hlen]
    have hcong : (List.range' 0 l.length).map (fun j => (CompactBoolList.ofList l).bitAt j) =
        (List.range' 0 l.length).map (fun j => l.getD j false) := by
      apply List.map_congr_left
      intro j hj
      rw [List.mem_range'] at hj
      obtain ⟨i2, hi2, hj2⟩ := hj
      subst hj2
      exact hbit _ (by omega)
    rw [hcong, range'_map_getD]

/-- Witness for C4 on the list [true, false, true] at index 1. -/
theorem c4_witness :
    ((1 : Nat) < ([true, false, true] : List Bool).length ∧
      (CompactBoolList.ofList [true, false, true]).getItem ((1 : Nat) : Int) =
        some (([true, false, true] : List Bool).getD 1 false)) ∧
    (CompactBoolList.ofList [true, false, true]).to_list.1 = [true, false, true] :=
  ⟨⟨by decide, (c4_roundtrip [true, false, true]).1 1 (by decide)⟩,
    (c4_roundtrip [true, false, true]).2⟩

/-- C8: every buffer reachable as CompactBoolList(l) followed by any
number of appends satisfies storage.size = ceil(length / 8) =
(length + 7) / 8; and under that invariant append grows the bytearray
by exactly one byte when length mod 8 = 0 and by none otherwise, the
grown byte starting as the zero byte into which the new bit is then
set. -/
theorem c8_storage_invariant :
    (∀ (l bs : List Bool),
      (bs.foldl (fun s2 b => s2.append b) (CompactBoolList.ofList l)).data.length =
        ((bs.foldl (fun s2 b => s2.append b) (CompactBoolList.ofList l)).length + 7) / 8) ∧
    (∀ (s : CompactBoolList) (b : Bool), s.data.length = (s.length + 7) / 8 →
      (s.append b).data.length = s.data.length + (if s.length % 8 = 0 then 1 else 0) ∧
      (s.length % 8 = 0 →
        (s.append b).data = s.data ++ [CompactBoolList.setBitRaw 0 (s.length % 8) b])) := by
  constructor
  · intro l bs
    have h1 := ofList_spec l
    have h2 := foldl_append_spec bs (CompactBoolList.ofList l) (by rw [h1.2.2.1, h1.1])
    rw [h2.2.2.1, h2.1, h1.1]
  · intro s b hinv
    refine ⟨(append_data_length hinv b).1, ?_⟩
    intro h8
    have hlen : s.data.length = s.length / 8 := by omega
    have hg : (s.data ++ [0] : List Nat).getD (s.length / 8) 0 = 0 := by
      rw [List.getD_eq_getElem?_getD, ← hlen, List.getElem?_concat_length]
      rfl
    rw [append_data, if_pos h8, hg, List.set_append_right _ _ (by omega)]
    have h0 : s.length / 8 - s.data.length = 0 := by omega
    rw [h0]
    rfl

/-- Witness for C8: appending to a full byte (8 bits) grows storage by
one byte. -/
theorem c8_witness :
    ((CompactBoolList.ofList (List.replicate 8 true)).append false).data.length =
      (CompactBoolList.ofList (List.replicate 8 true)).data.length +
        (if (CompactBoolList.ofList (List.replicate 8 true)).length % 8 = 0 then 1
         else 0) :=
  (c8_storage_invariant.2 (CompactBoolList.ofList (List.replicate 8 true)) false
    (by decide)).1

/-- C9: single-element get and set fail (IndexError, modelled as none)
exactly when the integer index is outside [-length, length); a negative
in-range index resolves by adding length, so get and set at i coincide
with get and set at i + length; and under the storage invariant a
successful set at a nonnegative index writes exactly the addressed bit,
leaving the length, the cursor and every other readable bit unchanged. -/
theorem c9_index_contract (s : CompactBoolList) (i : Int) (b : Bool) :
    (s.getItem i = none ↔ ¬(-(s.length : Int) ≤ i ∧ i < (s.length : Int))) ∧
    (s.setItem i b = none ↔ ¬(-(s.length : Int) ≤ i ∧ i < (s.length : Int))) ∧
    (-(s.length : Int) ≤ i → i < 0 →
      s.getItem i = s.getItem (i + (s.length : Int)) ∧
      s.setItem i b = s.setItem (i + (s.length : Int)) b) ∧
    (s.data.length = (s.length + 7) / 8 → 0 ≤ i → i < (s.length : Int) →
      ∃ s2, s.setItem i b = some s2 ∧ s2.length = s.length ∧ s2.index = s.index ∧
        s2.getItem i = some b ∧
        ∀ j : Int, 0 ≤ j → j < (s.length : Int) → j ≠ i →
          s2.getItem j = s.getItem j) := by
  refine ⟨getItem_none_iff s i, setItem_none_iff s i b, ?_, ?_⟩
  · intro hge hlt
    have hc1 : -(s.length : Int) ≤ i ∧ i < (s.length : Int) := ⟨hge, by omega⟩
    have hc2 : -(s.length : Int) ≤ i + (s.length : Int) ∧
        i + (s.length : Int) < (s.length : Int) := ⟨by omega, by omega⟩
    constructor
    · rw [CompactBoolList.getItem, CompactBoolList.getItem, if_pos hc1, if_pos hc2,
        if_pos hlt, if_neg (by omega : ¬ (i + (s.length : Int) < 0))]
    · rw [CompactBoolList.setItem, CompactBoolList.setItem, if_pos hc1, if_pos hc2,
        if_pos hlt, if_neg (by omega : ¬ (i + (s.length : Int) < 0))]
  · intro hinv h0 hlt
    have hjlen : i.toNat < s.length := by omega
    refine ⟨s.setAt i.toNat b, ?_, rfl, rfl, ?_, ?_⟩
    · rw [CompactBoolList.setItem, if_pos ⟨by omega, hlt⟩, if_neg (by omega : ¬ i < 0)]
    · have hgoal := getItem_natCast (s.setAt i.toNat b)
        (show i.toNat < (s.setAt i.toNat b).length from hjlen)
      rw [bitAt_setAt_self _ _ _ (by omega),
        (by omega : ((i.toNat : Nat) : Int) = i)] at hgoal
      exact hgoal
    · intro j hj0 hjlt hne
      have hga := getItem_natCast (s.setAt i.toNat b)
        (show j.toNat < (s.setAt i.toNat b).length from by
          show j.toNat < s.length
          omega)
      have hgb := getItem_natCast s (show j.toNat < s.length by omega)
      rw [bitAt_setAt_ne _ _ (by omega : i.toNat ≠ j.toNat)] at hga
      rw [(by omega : ((j.toNat : Nat) : Int) = j)] at hga hgb
      rw [hga, hgb]

/-- Witness for C9 on CompactBoolList([1,0,1]) with indices -1 and 1. -/
theorem c9_witness :
    ((CompactBoolList.ofList [true, false, true]).getItem (-1) =
        (CompactBoolList.ofList [true, false, true]).getItem
          (-1 + ((CompactBoolList.ofList [true, false, true]).length : Int)) ∧
      (CompactBoolList.ofList [true, false, true]).setItem (-1) false =
        (CompactBoolList.ofList [true, false, true]).setItem
          (-1 + ((CompactBoolList.ofList [true, false, true]).length : Int)) false) ∧
    ∃ s2, (CompactBoolList.ofList [true, false, true]).setItem 1 true = some s2 ∧
      s2.length = (CompactBoolList.ofList [true, false, true]).length ∧
      s2.index = (CompactBoolList.ofList [true, false, true]).index ∧
      s2.getItem 1 = some true ∧
      ∀ j : Int, 0 ≤ j →
        j < ((CompactBoolList.ofList [true, false, true]).length : Int) → j ≠ 1 →
          s2.getItem j = (CompactBoolList.ofList [true, false, true]).getItem j :=
  ⟨(c9_index_contract (CompactBoolList.ofList [true, false, true]) (-1) false).2.2.1
      (by decide) (by decide),
    (c9_index_contract (CompactBoolList.ofList [true, false, true]) 1 true).2.2.2
      (by decide) (by decide) (by decide)⟩

/-- C2 (code_bug evidence): the iteration cursor is stored on the
buffer itself and shared between traversals.  For CompactBoolList([1,0])
a fresh full traversal (to_list) yields both bits, but after one
nextStep is consumed and that traversal abandoned, the cursor stays at
1, so the next full traversal yields only [0] instead of beginning at
index 0 and yielding exactly length = 2 bits. -/
theorem c2_shared_cursor :
    (CompactBoolList.ofList [true, false]).length = 2 ∧
    (CompactBoolList.ofList [true, false]).to_list.1 = [true, false] ∧
    (CompactBoolList.ofList [true, false]).nextStep.2.index = 1 ∧
    (CompactBoolList.ofList [true, false]).nextStep.2.to_list.1 = [false] ∧
    (CompactBoolList.ofList [true, false]).nextStep.2.to_list.1.length ≠ 2 := by
  decide

theorem engineAnswers_length {σ : Type} (step : σ → Nat → Bool × σ) :
    ∀ (idx : List Nat) (e : σ), (engineAnswers step e idx).length = idx.length := by
  intro idx
  induction idx with
  | nil => intro e; rfl
  | cons i rest ih =>
    intro e
    simp only [engineAnswers, List.length_cons]
    rw [ih]

theorem trevisan_fold {σ : Type} (step : σ → Nat → Bool × σ) :
    ∀ (idx : List Nat) (s : CompactBoolList) (e : σ) (tr : List Nat),
      (idx.foldl
          (fun acc i =>
            let b := step acc.2.1 i
            (acc.1.append b.1, b.2, acc.2.2 ++ [i]))
          (s, e, tr)).1 =
        (engineAnswers step e idx).foldl (fun s2 b => s2.append b) s ∧
      (idx.foldl
          (fun acc i =>
            let b := step acc.2.1 i
            (acc.1.append b.1, b.2, acc.2.2 ++ [i]))
          (s, e, tr)).2.2 = tr ++ idx := by
  intro idx
  induction idx with
  | nil =>
    intro s e tr
    exact ⟨rfl, by simp⟩
  | cons i rest ih =>
    intro s e tr
    simp only [List.foldl_cons, engineAnswers]
    have h := ih (s.append (step e i).1) (step e i).2 (tr ++ [i])
    refine ⟨h.1, ?_⟩
    rw [h.2, List.append_assoc]
    rfl

/-- C7: for every engine (modelled as a stateful single-bit oracle) and
output length m, extract records engine queries at indices exactly
0, 1, ..., m-1 in that order, once each (the trace equals range m); the
returned buffer is exactly the fresh buffer with the successive engine
answers appended, has length exactly m, and its i-th element is the
engine answer for index i. -/
theorem c7_trevisan_extract {σ : Type} (step : σ → Nat → Bool × σ) (m : Nat) (e0 : σ) :
    (trevisanExtract step m e0).2.2 = List.range m ∧
    (trevisanExtract step m e0).1 =
      CompactBoolList.ofList (engineAnswers step e0 (List.range m)) ∧
    (trevisanExtract step m e0).1.length = m ∧
    ∀ i, i < m → (trevisanExtract step m e0).1.getItem (i : Int) =
      some ((engineAnswers step e0 (List.range m)).getD i false) := by
  have hf := trevisan_fold step (List.range m) CompactBoolList.empty e0 []
  have h1 : (trevisanExtract step m e0).1 =
      CompactBoolList.ofList (engineAnswers step e0 (List.range m)) := hf.1
  have h2 : (trevisanExtract step m e0).2.2 = List.range m := by
    have h3 := hf.2
    rw [List.nil_append] at h3
    exact h3
  obtain ⟨hlen, hidx, hdata, hbit⟩ := ofList_spec (engineAnswers step e0 (List.range m))
  have hm : (engineAnswers step e0 (List.range m)).length = m := by
    rw [engineAnswers_length]
    simp
  refine ⟨h2, h1, by rw [h1, hlen, hm], ?_⟩
  intro i hi
  rw [h1, getItem_natCast _ (by omega), hbit i (by omega)]

/-- Witness for C7 with a concrete stateful engine and m = 4:
the trace is [0, 1, 2, 3] and the buffer has length 4. -/
theorem c7_witness :
    (trevisanExtract (fun (e : Nat) i => (decide (e % 2 = 0), e + i)) 4 0).2.2 =
        List.range 4 ∧
    (trevisanExtract (fun (e : Nat) i => (decide (e % 2 = 0), e + i)) 4 0).1.length = 4 ∧
    (2 : Nat) < 4 ∧
    (trevisanExtract (fun (e : Nat) i => (decide (e % 2 = 0), e + i)) 4 0).1.getItem
        ((2 : Nat) : Int) =
      some ((engineAnswers (fun (e : Nat) i => (decide (e % 2 = 0), e + i)) 0
        (List.range 4)).getD 2 false) :=
  ⟨(c7_trevisan_extract (fun (e : Nat) i => (decide (e % 2 = 0), e + i)) 4 0).1,
    (c7_trevisan_extract (fun (e : Nat) i => (decide (e % 2 = 0), e + i)) 4 0).2.2.1,
    by decide,
    (c7_trevisan_extract (fun (e : Nat) i => (decide (e % 2 = 0), e + i)) 4 0).2.2.2 2
      (by decide)⟩
